import Mathlib

/-!
Verification development for the camera-controller fuzzing framework
(`src/src/graphics/fuzzer.py`, class `CameraFuzzer`).

Modelling conventions, fixed once for the whole file:

* Python `bytes` values are `List Nat` (each element is one byte; the byte
  operations used by the fuzzer keep values below 256 and never depend on an
  upper bound, so no bound invariant is threaded through).
* IEEE-754 binary32 floats are modelled by their 32-bit little-endian bit
  patterns (`Nat` below `2 ^ 32`).  `struct.pack('f', x)` / `struct.unpack('f', b)`
  become the 4-byte little-endian (de)serialisation of those patterns
  (`pack32` / `unpack32`).  This is exact on the domain where the spec's
  round-trip tolerance claim is meaningful.
* Exceptions of fallible primitives (`struct.unpack` with a wrong buffer
  size, `random.randint` with an empty range, out-of-bounds indexing) are
  modelled with `Option`: `none` is an uncaught Python exception; a source
  `try`/`except` block is a `match` discharging the `none` case.
* `random.randint(a, b)` draws are modelled by `randintF`: an arbitrary
  natural-number stream value is clamped into `[a, b]` with `%`, which is
  surjective onto the range, so quantifying over the stream quantifies over
  every possible draw.  `random.random() < p` coin flips and `random.choice`
  are likewise driven by stream values.
* SHA-256 digests (`hashlib.sha256(...).hexdigest()`) are modelled by an
  injective encoding of their preimage (the hashed string's components),
  since every property proved here depends only on the digest being a
  deterministic function of the hashed data; hash collisions are not
  modelled.
* File and process I/O is abstracted to the data flowing through it: the
  functions below take and return the byte strings, directory states and
  process outcomes that the Python code reads and writes.
-/

namespace Fuzzer

/-! ### Binary encoding of camera state (write_input_file / read_input_file) -/

/-- `struct.pack('f', ·)`: little-endian 4-byte serialisation of a binary32
bit pattern. -/
def pack32 (n : Nat) : List Nat :=
  [n % 256, n / 256 % 256, n / 65536 % 256, n / 16777216 % 256]

/-- `struct.pack('3f', *v)` / `struct.pack('4f', *v)`: concatenation of the
component encodings. -/
def packVec : List Nat → List Nat
  | [] => []
  | n :: t => pack32 n ++ packVec t

/-- Recombine four little-endian bytes into a binary32 bit pattern. -/
def unpack32 (b0 b1 b2 b3 : Nat) : Nat :=
  b0 + 256 * b1 + 65536 * b2 + 16777216 * b3

/-- `struct.unpack('f', b)`: fails (raises `struct.error`) unless the buffer
is exactly 4 bytes. -/
def unpack32? : List Nat → Option Nat
  | [b0, b1, b2, b3] => some (unpack32 b0 b1 b2 b3)
  | _ => none

/-- `struct.unpack('<n>f', b)`: fails unless the buffer is exactly `4 * n`
bytes, otherwise returns the `n` decoded components. -/
def unpackVec? : Nat → List Nat → Option (List Nat)
  | 0, [] => some []
  | 0, _ :: _ => none
  | n + 1, b0 :: b1 :: b2 :: b3 :: rest =>
      (unpackVec? n rest).map (fun t => unpack32 b0 b1 b2 b3 :: t)
  | _ + 1, _ => none

/-- Python slice `l[i:j]` for `0 ≤ i ≤ j` (clamping, never failing). -/
def listSlice (l : List Nat) (i j : Nat) : List Nat :=
  (l.drop i).take (j - i)

/-- The fuzzer's Input value: a Python dict with optional keys `position`
(3 floats), `rotation` (4 floats, a quaternion), `zoom` (1 float) and `bytes`
(raw payload).  A missing key is `none`. -/
structure Input where
  position : Option (List Nat) := none
  rotation : Option (List Nat) := none
  zoom : Option Nat := none
  bytes : Option (List Nat) := none
deriving DecidableEq

/-- `CameraFuzzer.write_input_file` (fuzzer.py lines 527-544), with the file
abstracted to the byte string written: raw `bytes` are emitted verbatim when
present; otherwise the present structured fields are packed in order
position, rotation, zoom. -/
def write_input_file (x : Input) : List Nat :=
  match x.bytes with
  | some b => b
  | none =>
      (match x.position with
        | some p => packVec p
        | none => []) ++
      (match x.rotation with
        | some r => packVec r
        | none => []) ++
      (match x.zoom with
        | some z => pack32 z
        | none => [])

/-- `CameraFuzzer.read_input_file` (fuzzer.py lines 546-568), with the file
abstracted to the byte string read.  For 32 or more bytes the first 32 bytes
are parsed as 3+4+1 little-endian floats inside a `try`; a parse failure
(`none` from the fallible unpack) or a short buffer falls back to the
raw-bytes representation.  A successful parse also keeps the full original
byte string under `bytes`. -/
def read_input_file (data : List Nat) : Input :=
  if 32 ≤ data.length then
    match unpackVec? 3 (listSlice data 0 12), unpackVec? 4 (listSlice data 12 28),
        unpack32? (listSlice data 28 32) with
    | some pos, some rot, some z =>
        { position := some pos, rotation := some rot, zoom := some z, bytes := some data }
    | _, _, _ => { bytes := some data }
  else { bytes := some data }

/-! ### Helper lemmas about the byte-level encoding -/

theorem pack32_length (n : Nat) : (pack32 n).length = 4 := rfl

theorem packVec_length (p : List Nat) : (packVec p).length = 4 * p.length := by
  induction p with
  | nil => rfl
  | cons x t ih => simp [packVec, pack32, ih]; omega

theorem unpack32_pack32 (n : Nat) (h : n < 2 ^ 32) :
    unpack32 (n % 256) (n / 256 % 256) (n / 65536 % 256) (n / 16777216 % 256) = n := by
  unfold unpack32
  omega

theorem unpackVec?_packVec (p : List Nat) (h : ∀ n ∈ p, n < 2 ^ 32) :
    unpackVec? p.length (packVec p) = some p := by
  induction p with
  | nil => rfl
  | cons x t ih =>
      have hx : x < 2 ^ 32 := h x (List.mem_cons_self x t)
      have ht : ∀ n ∈ t, n < 2 ^ 32 := fun n hn => h n (List.mem_cons_of_mem x hn)
      show (unpackVec? t.length (packVec t)).map
          (fun v => unpack32 (x % 256) (x / 256 % 256) (x / 65536 % 256) (x / 16777216 % 256) :: v)
        = some (x :: t)
      rw [ih ht]
      simp only [Option.map_some']
      rw [unpack32_pack32 x hx]

theorem unpack32?_pack32 (z : Nat) (h : z < 2 ^ 32) :
    unpack32? (pack32 z) = some z := by
  simp only [pack32, unpack32?]
  rw [unpack32_pack32 z h]

theorem take_len_append (a b : List Nat) : (a ++ b).take a.length = a := by
  induction a with
  | nil => simp
  | cons x t ih => simp [ih]

theorem drop_len_append (a b : List Nat) : (a ++ b).drop a.length = b := by
  induction a with
  | nil => simp
  | cons x t ih => simp [ih]

/-- Slicing with a length of exactly `4 * n` bytes succeeds as an `n`-float
unpack (needed to show the structured parse of `read_input_file` never
fails on a long-enough buffer). -/
theorem unpackVec?_isSome (n : Nat) (l : List Nat) (h : l.length = 4 * n) :
    ∃ v, unpackVec? n l = some v := by
  induction n generalizing l with
  | zero =>
      cases l with
      | nil => exact ⟨[], rfl⟩
      | cons x t => simp at h
  | succ m ih =>
      match l, h with
      | b0 :: b1 :: b2 :: b3 :: rest, h =>
          have hr : rest.length = 4 * m := by simp at h; omega
          obtain ⟨v, hv⟩ := ih rest hr
          exact ⟨unpack32 b0 b1 b2 b3 :: v, by simp [unpackVec?, hv]⟩
      | [], h => exact absurd h (by simp only [List.length_nil]; omega)
      | [b0], h => exact absurd h (by simp only [List.length_cons, List.length_nil]; omega)
      | [b0, b1], h => exact absurd h (by simp only [List.length_cons, List.length_nil]; omega)
      | [b0, b1, b2], h =>
          exact absurd h (by simp only [List.length_cons, List.length_nil]; omega)

theorem unpack32?_isSome (l : List Nat) (h : l.length = 4) : ∃ z, unpack32? l = some z := by
  match l, h with
  | [b0, b1, b2, b3], _ => exact ⟨unpack32 b0 b1 b2 b3, rfl⟩
  | [], h => exact absurd h (by simp only [List.length_nil]; omega)
  | [b0], h => exact absurd h (by simp only [List.length_cons, List.length_nil]; omega)
  | [b0, b1], h => exact absurd h (by simp only [List.length_cons, List.length_nil]; omega)
  | [b0, b1, b2], h =>
      exact absurd h (by simp only [List.length_cons, List.length_nil]; omega)
  | b0 :: b1 :: b2 :: b3 :: b4 :: rest, h =>
      exact absurd h (by simp only [List.length_cons]; omega)

theorem slice_first (a b : List Nat) : listSlice (a ++ b) 0 a.length = a := by
  simp only [listSlice, List.drop_zero, Nat.sub_zero]
  exact take_len_append a b

theorem slice_mid (a b c : List Nat) :
    listSlice (a ++ (b ++ c)) a.length (a.length + b.length) = b := by
  simp only [listSlice, Nat.add_sub_cancel_left]
  rw [drop_len_append]
  exact take_len_append b c

theorem slice_last (a b c : List Nat) :
    listSlice (a ++ (b ++ c)) (a.length + b.length) (a.length + b.length + c.length) = c := by
  simp only [listSlice, Nat.add_sub_cancel_left]
  rw [← List.append_assoc, show a.length + b.length = (a ++ b).length by
    simp [List.length_append], drop_len_append]
  exact List.take_length c

/-! ### Claim theorems about the Input model -/

/-- C3: `read_input_file` (decode) is total on arbitrary byte strings — the
result always exists and always carries the full original bytes; when the
structured parse is not taken (length below 32; the parse itself never fails
at length 32 or more, as the third conjunct shows by producing the structured
fields), the result is purely the raw bytes with no structured fields. -/
theorem read_input_file_total_raw_fallback :
    ∀ b : List Nat,
      (read_input_file b).bytes = some b ∧
      (b.length < 32 → read_input_file b = { bytes := some b }) ∧
      (32 ≤ b.length → ∃ p r z, read_input_file b =
        { position := some p, rotation := some r, zoom := some z, bytes := some b }) := by
  intro b
  by_cases h : 32 ≤ b.length
  · have h1 : (listSlice b 0 12).length = 4 * 3 := by simp [listSlice]; omega
    have h2 : (listSlice b 12 28).length = 4 * 4 := by simp [listSlice]; omega
    have h3 : (listSlice b 28 32).length = 4 := by simp [listSlice]; omega
    obtain ⟨p, hp⟩ := unpackVec?_isSome 3 _ h1
    obtain ⟨r, hr⟩ := unpackVec?_isSome 4 _ h2
    obtain ⟨z, hz⟩ := unpack32?_isSome _ h3
    have hread : read_input_file b =
        { position := some p, rotation := some r, zoom := some z, bytes := some b } := by
      rw [read_input_file, if_pos h, hp, hr, hz]
    exact ⟨by rw [hread], fun hlt => absurd h (by omega), fun _ => ⟨p, r, z, hread⟩⟩
  · have hread : read_input_file b = { bytes := some b } := by
      rw [read_input_file, if_neg h]
    exact ⟨by rw [hread], fun _ => hread, fun h32 => absurd h32 h⟩

/-- Witness for C3 at the concrete inputs named by the claim: the empty byte
string and a 33-byte string. -/
theorem read_input_file_total_raw_fallback_witness :
    read_input_file [] = { bytes := some [] } ∧
    ∃ p r z, read_input_file (List.replicate 33 7) =
      { position := some p, rotation := some r, zoom := some z,
        bytes := some (List.replicate 33 7) } :=
  ⟨(read_input_file_total_raw_fallback []).2.1 (by decide),
    (read_input_file_total_raw_fallback (List.replicate 33 7)).2.2 (by decide)⟩

/-- C9: `write_input_file` (encode) is a left inverse of `read_input_file`
(decode) on raw bytes: a successful structured parse still retains the whole
original byte string as the authoritative payload, and encode emits a present
payload verbatim, so the round trip is the identity on every byte string. -/
theorem write_read_input_file_id :
    ∀ b : List Nat, write_input_file (read_input_file b) = b := by
  intro b
  by_cases h : 32 ≤ b.length
  · rcases hp : unpackVec? 3 (listSlice b 0 12) with _ | p <;>
      rcases hr : unpackVec? 4 (listSlice b 12 28) with _ | r <;>
        rcases hz : unpack32? (listSlice b 28 32) with _ | z <;>
          simp [read_input_file, h, hp, hr, hz, write_input_file]
  · simp [read_input_file, h, write_input_file]

/-- A structured probe input with all three fields present and no raw
payload (all-zero bit patterns, i.e. position `[0,0,0]`, identity-free
quaternion `[0,0,0,0]`, zoom `0.0`). -/
def roundTripProbe : Input :=
  { position := some [0, 0, 0], rotation := some [0, 0, 0, 0], zoom := some 0 }

/-- C2 counterexample: decoding the encoding of a fully structured input does
not return the input itself — `read_input_file` always installs the raw byte
string under the `bytes` key (fuzzer.py line 562), a field the original input
did not have. -/
theorem read_write_not_identity :
    read_input_file (write_input_file roundTripProbe) ≠ roundTripProbe := by decide

/-- C2 (amended): for a structured input with all three fields present and no
raw payload, decode after encode restores position, rotation and zoom exactly
(components are binary32 bit patterns, so exact recovery implies the spec's
1e-6 tolerance), and additionally stores the encoded byte string under the
`bytes` field. -/
theorem read_write_input_file_structured (p r : List Nat) (z : Nat)
    (hp : p.length = 3) (hr : r.length = 4)
    (hpb : ∀ n ∈ p, n < 2 ^ 32) (hrb : ∀ n ∈ r, n < 2 ^ 32) (hz : z < 2 ^ 32) :
    read_input_file (write_input_file
        { position := some p, rotation := some r, zoom := some z, bytes := none }) =
      { position := some p, rotation := some r, zoom := some z,
        bytes := some (write_input_file
          { position := some p, rotation := some r, zoom := some z, bytes := none }) } := by
  have hE : write_input_file
      { position := some p, rotation := some r, zoom := some z, bytes := none } =
      packVec p ++ (packVec r ++ pack32 z) := by
    simp [write_input_file]
  have hlp : (packVec p).length = 12 := by rw [packVec_length, hp]
  have hlr : (packVec r).length = 16 := by rw [packVec_length, hr]
  have hlz : (pack32 z).length = 4 := pack32_length z
  have hlen : (packVec p ++ (packVec r ++ pack32 z)).length = 32 := by
    simp [List.length_append, hlp, hlr, hlz]
  have h32 : 32 ≤ (packVec p ++ (packVec r ++ pack32 z)).length := by omega
  have s1 : listSlice (packVec p ++ (packVec r ++ pack32 z)) 0 12 = packVec p := by
    rw [← hlp]
    exact slice_first _ _
  have s2 : listSlice (packVec p ++ (packVec r ++ pack32 z)) 12 28 = packVec r := by
    rw [show (12 : Nat) = (packVec p).length from hlp.symm,
      show (28 : Nat) = (packVec p).length + (packVec r).length from by rw [hlp, hlr]]
    exact slice_mid _ _ _
  have s3 : listSlice (packVec p ++ (packVec r ++ pack32 z)) 28 32 = pack32 z := by
    rw [show (28 : Nat) = (packVec p).length + (packVec r).length from by rw [hlp, hlr],
      show (32 : Nat) = (packVec p).length + (packVec r).length + (pack32 z).length from by
        rw [hlp, hlr, hlz]]
    exact slice_last _ _ _
  have up : unpackVec? 3 (packVec p) = some p := by
    rw [← hp]
    exact unpackVec?_packVec p hpb
  have ur : unpackVec? 4 (packVec r) = some r := by
    rw [← hr]
    exact unpackVec?_packVec r hrb
  have uz : unpack32? (pack32 z) = some z := unpack32?_pack32 z hz
  rw [hE, read_input_file, if_pos h32, s1, s2, s3, up, ur, uz]

/-- Witness for the amended C2 at a concrete fully structured input. -/
theorem read_write_input_file_structured_witness :
    read_input_file (write_input_file
        { position := some [1, 2, 3], rotation := some [4, 5, 6, 7], zoom := some 9,
          bytes := none }) =
      { position := some [1, 2, 3], rotation := some [4, 5, 6, 7], zoom := some 9,
        bytes := some (write_input_file
          { position := some [1, 2, 3], rotation := some [4, 5, 6, 7], zoom := some 9,
            bytes := none }) } :=
  read_write_input_file_structured [1, 2, 3] [4, 5, 6, 7] 9 rfl rfl
    (by decide) (by decide) (by decide)

/-! ### Execution results and the target-runner classification -/

/-- Parse a nonempty all-digit character list as a natural number. -/
def digitsVal? : List Char → Option Nat
  | [] => none
  | l =>
      if l.all Char.isDigit then
        some (l.foldl (fun acc c => 10 * acc + (c.toNat - 48)) 0)
      else none

/-- Python `int(s)`: surrounding whitespace is stripped, then an optional
sign is followed by decimal digits.  (CPython additionally accepts
underscore digit grouping, which the documented `COV:` line format never
contains and which is not modelled.) -/
def pyInt? (s : String) : Option Int :=
  match s.trim.data with
  | [] => none
  | c :: rest =>
      if c = '-' then (digitsVal? rest).map (fun n => -(n : Int))
      else if c = '+' then (digitsVal? rest).map (fun n => (n : Int))
      else (digitsVal? (c :: rest)).map (fun n => (n : Int))

/-- `coverage.extend(int(p) for p in parts if p)` under a `try` (fuzzer.py
lines 578-582): parts are parsed left to right and appended one by one;
empty parts are skipped; when `int()` raises, the elements already appended
stay and the rest of the line is abandoned. -/
def extendInts : List String → List Int
  | [] => []
  | p :: rest =>
      if p = "" then extendInts rest
      else
        match pyInt? p with
        | some n => n :: extendInts rest
        | none => []

/-- One `COV:` line's contribution: the text after the first colon, trimmed
and split on commas, parsed by `extendInts`. -/
def covLine (line : String) : List Int :=
  extendInts ((((line.splitOn ":").getD 1 "").trim).splitOn ",")

/-- `CameraFuzzer.extract_coverage` (fuzzer.py lines 570-584): collect the
integers of every stdout line starting with `COV:`; `None` (here `none`)
when nothing was collected. -/
def extract_coverage (out : String) : Option (List Int) :=
  let cov := (out.splitOn "\n").foldl
    (fun acc line => if line.startsWith "COV:" then acc ++ covLine line else acc) []
  if cov.isEmpty then none else some cov

/-- One Target Runner result: the `result` dict built by `execute_target`
(fuzzer.py lines 163-171).  The defaults are the dict's initial values; the
`signal` key is only ever added on the crash path, so `none` models the
absent key. -/
structure ExecResult where
  execution_time : ℚ := 0
  exit_code : Int := 0
  crashed : Bool := false
  timeout : Bool := false
  stdout : String := ""
  stderr : String := ""
  coverage : Option (List Int) := none
  signal : Option Int := none

/-- Outcome of the `subprocess.run` call inside `execute_target`: either the
process completed with a signed return code (negative encodes death by
signal) or the 2-second hard wall-clock timeout raised `TimeoutExpired`. -/
inductive ProcOutcome
  | completed (returncode : Int) (stdout stderr : String)
  | timedOut

/-- The classification performed by `CameraFuzzer.execute_target`
(fuzzer.py lines 185-211) on the process outcome, as the field updates it
applies to the fresh result dict.  Writing and unconditionally removing the
temporary input file, and the executions counter, are I/O and statistics
effects outside the returned value. -/
def execute_target (o : ProcOutcome) (elapsed : ℚ) : ExecResult :=
  match o with
  | .completed rc out err =>
      { execution_time := elapsed
        exit_code := rc
        stdout := out
        stderr := err
        crashed := decide (rc < 0)
        signal := if rc < 0 then some (-rc) else none
        coverage := extract_coverage out }
  | .timedOut => { execution_time := elapsed, timeout := true }

/-- C6: `execute_target` classifies outcomes exhaustively and exclusively —
a negative (signal-style) exit status is a crash recording the negated
status as the signal number, a non-negative non-zero exit is neither crash
nor timeout, and exceeding the hard timeout is a timeout and never a
crash. -/
theorem execute_target_classification :
    (∀ rc out err t, rc < 0 →
      (execute_target (.completed rc out err) t).crashed = true ∧
      (execute_target (.completed rc out err) t).signal = some (-rc) ∧
      (execute_target (.completed rc out err) t).timeout = false) ∧
    (∀ rc out err t, 0 ≤ rc → rc ≠ 0 →
      (execute_target (.completed rc out err) t).crashed = false ∧
      (execute_target (.completed rc out err) t).timeout = false) ∧
    (∀ t, (execute_target .timedOut t).timeout = true ∧
      (execute_target .timedOut t).crashed = false) := by
  refine ⟨fun rc out err t h => ⟨?_, ?_, rfl⟩,
    fun rc out err t h h0 => ⟨?_, rfl⟩, fun t => ⟨rfl, rfl⟩⟩
  · simp [execute_target, h]
  · simp [execute_target, h]
  · simp [execute_target]
    omega

/-- Witness for C6: signal-style exit -11 is a crash with signal 11, plain
exit 1 is benign, and a hard timeout is a timeout. -/
theorem execute_target_classification_witness :
    (execute_target (.completed (-11) "" "boom") 0).crashed = true ∧
    (execute_target (.completed 1 "" "") 0).crashed = false ∧
    (execute_target .timedOut 3).timeout = true :=
  ⟨(execute_target_classification.1 (-11) "" "boom" 0 (by decide)).1,
    (execute_target_classification.2.1 1 "" "" 0 (by decide) (by decide)).1,
    (execute_target_classification.2.2 3).1⟩

/-! ### The interestingness oracle -/

/-- The CoverageMap: the keys of `self.coverage_map` (a dict used as a set).
Following the hash model fixed in the header, a key is the sorted coverage
list hashed by `hash_coverage`. -/
abbrev CoverageMap := List (List Int)

/-- `CameraFuzzer.hash_coverage` (fuzzer.py lines 586-589): the SHA-256
digest of the comma-joined sorted coverage list, modelled by its preimage —
the sorted list (decimal joining is injective on sorted integer lists, and
this file only relies on the digest being a deterministic function of the
coverage). -/
def hash_coverage (cov : List Int) : List Int :=
  cov.insertionSort (· ≤ ·)

/-- Paths 4-6 of `is_interesting` (fuzzer.py lines 239-247: slow execution,
long stderr, otherwise uninteresting): the shared tail every earlier
non-returning path falls through to; it never changes the state. -/
def is_interesting_tail (r : ExecResult) (cm : CoverageMap) (ci : Nat) :
    Bool × CoverageMap × Nat :=
  if (1 : ℚ) / 2 < r.execution_time then (true, cm, ci)
  else if 1000 < r.stderr.length then (true, cm, ci)
  else (false, cm, ci)

/-- `CameraFuzzer.is_interesting` (fuzzer.py lines 221-247) as a function of
the result, the `random.random()` draw used by the timeout path, and the
fuzzer's coverage state.  Returns the verdict together with the updated
coverage map and `coverage_increase` counter — the only fuzzer state the
method mutates.  The `if result.coverage:` truthiness test makes an empty
coverage list fall through exactly like an absent one. -/
def is_interesting (r : ExecResult) (rand : ℚ) (cm : CoverageMap) (ci : Nat) :
    Bool × CoverageMap × Nat :=
  if r.crashed then (true, cm, ci)
  else if r.timeout ∧ rand < 1 / 10 then (true, cm, ci)
  else
    match r.coverage with
    | some cov =>
        if cov.isEmpty then is_interesting_tail r cm ci
        else if hash_coverage cov ∈ cm then is_interesting_tail r cm ci
        else (true, hash_coverage cov :: cm, ci + 1)
    | none => is_interesting_tail r cm ci

theorem is_interesting_tail_snd (r : ExecResult) (cm : CoverageMap) (ci : Nat) :
    (is_interesting_tail r cm ci).2 = (cm, ci) := by
  unfold is_interesting_tail
  split_ifs <;> rfl

theorem is_interesting_tail_benign {r : ExecResult} (cm : CoverageMap) (ci : Nat)
    (h5 : ¬ ((1 : ℚ) / 2 < r.execution_time)) (hs : ¬ (1000 < r.stderr.length)) :
    is_interesting_tail r cm ci = (false, cm, ci) := by
  unfold is_interesting_tail
  rw [if_neg h5, if_neg hs]

/-- C4: oracle precedence — a crashed result is interesting for every random
draw and coverage state, leaving the state untouched; a non-crashed,
non-timed-out result with previously seen coverage, duration at most 0.5s
and stderr at most 1000 characters is not interesting; and the coverage map
is extended (with the counter incremented) exactly on the new-coverage
path. -/
theorem is_interesting_precedence :
    (∀ r rand cm ci, r.crashed = true → is_interesting r rand cm ci = (true, cm, ci)) ∧
    (∀ r rand cm ci cov, r.crashed = false → r.timeout = false → r.coverage = some cov →
      hash_coverage cov ∈ cm → r.execution_time ≤ 1 / 2 → r.stderr.length ≤ 1000 →
      is_interesting r rand cm ci = (false, cm, ci)) ∧
    (∀ r rand cm ci,
      (is_interesting r rand cm ci).2 = (cm, ci) ∨
      ∃ cov, r.coverage = some cov ∧ cov ≠ [] ∧ hash_coverage cov ∉ cm ∧
        is_interesting r rand cm ci = (true, hash_coverage cov :: cm, ci + 1)) := by
  refine ⟨fun r rand cm ci h => by simp [is_interesting, h],
    fun r rand cm ci cov hc ht hcov hm h5 hs => ?_, fun r rand cm ci => ?_⟩
  · have h5n : ¬ ((1 : ℚ) / 2 < r.execution_time) := not_lt.mpr h5
    have hsn : ¬ (1000 < r.stderr.length) := not_lt.mpr hs
    simp only [is_interesting, hcov]
    rw [if_neg (by simp [hc]), if_neg (by simp [ht])]
    by_cases he : cov.isEmpty
    · rw [if_pos he]
      exact is_interesting_tail_benign cm ci h5n hsn
    · rw [if_neg he, if_pos hm]
      exact is_interesting_tail_benign cm ci h5n hsn
  · by_cases hcr : r.crashed
    · left
      simp [is_interesting, hcr]
    · by_cases hto : r.timeout ∧ rand < 1 / 10
      · left
        simp only [is_interesting]
        rw [if_neg hcr, if_pos hto]
      · rcases hcov : r.coverage with _ | cov
        · left
          simp only [is_interesting, hcov]
          rw [if_neg hcr, if_neg hto]
          exact is_interesting_tail_snd r cm ci
        · by_cases he : cov.isEmpty
          · left
            simp only [is_interesting, hcov]
            rw [if_neg hcr, if_neg hto, if_pos he]
            exact is_interesting_tail_snd r cm ci
          · by_cases hm : hash_coverage cov ∈ cm
            · left
              simp only [is_interesting, hcov]
              rw [if_neg hcr, if_neg hto, if_neg he, if_pos hm]
              exact is_interesting_tail_snd r cm ci
            · right
              refine ⟨cov, rfl, fun hnil => he (by simp [hnil]), hm, ?_⟩
              simp only [is_interesting, hcov]
              rw [if_neg hcr, if_neg hto, if_neg he, if_neg hm]

/-- A crashed result (the crash path needs nothing else set). -/
def crashedRes : ExecResult := { crashed := true, signal := some 11 }

/-- A benign result: no crash, no timeout, short run, short stderr, coverage
already seen. -/
def benignRes : ExecResult := { coverage := some [5], execution_time := 1 / 4 }

/-- Witness for C4 at concrete results and a concrete map state. -/
theorem is_interesting_precedence_witness :
    is_interesting crashedRes 0 [] 0 = (true, [], 0) ∧
    is_interesting benignRes 0 [hash_coverage [5]] 0 = (false, [hash_coverage [5]], 0) :=
  ⟨is_interesting_precedence.1 crashedRes 0 [] 0 rfl,
    is_interesting_precedence.2.1 benignRes 0 [hash_coverage [5]] 0 [5] rfl rfl rfl
      (List.mem_singleton.mpr rfl) (by norm_num [benignRes]) (by decide)⟩

/-! ### Crash store (save_crash) -/

/-- A crash signature: the 16-hex-character truncation of
`sha256("<signal>:<stderr>")`, modelled by the digest's preimage components
(see the header: the claims depend only on the signature being a
deterministic function of signal and stderr). -/
abbrev CrashSig := Int × String

/-- Contents of one file written into a crash directory. -/
inductive CrashFile
  | inputBin (bytes : List Nat)
  | metadataJson (timestamp : Nat) (signal : Int) (exit_code : Int)
      (execution_time : ℚ) (stdout stderr : String)
  | reproduceSh (signal : Option Int)
deriving DecidableEq

/-- The fuzzer state touched by `save_crash`: the `unique_crashes` set and
the crash directory tree (one directory per signature, each holding named
files; a written file shadows an older one of the same path). -/
structure CrashStore where
  unique_crashes : List CrashSig
  dirs : List CrashSig
  files : List (CrashSig × String × CrashFile)
deriving DecidableEq

/-- `CameraFuzzer.save_crash` (fuzzer.py lines 262-304).  `result['signal']`
raises `KeyError` (`none`) when the key is absent; `save_crash` is only
reached for crashed results, which always carry it.  The metadata timestamp
`datetime.now()` is an external input.  `mkdir(exist_ok=True)` adds the
directory only when missing.  The terminal `print` is I/O without state. -/
def save_crash (r : ExecResult) (inp : Input) (ts : Nat) (st : CrashStore) :
    Option CrashStore :=
  match r.signal with
  | none => none
  | some sg =>
      let crash_id : CrashSig := (sg, r.stderr)
      if crash_id ∈ st.unique_crashes then some st
      else some {
        unique_crashes := crash_id :: st.unique_crashes
        dirs := if crash_id ∈ st.dirs then st.dirs else crash_id :: st.dirs
        files :=
          (crash_id, "reproduce.sh", CrashFile.reproduceSh r.signal) ::
          (crash_id, "metadata.json",
            CrashFile.metadataJson ts (r.signal.getD 0) r.exit_code r.execution_time
              (r.stdout.take 1000) (r.stderr.take 1000)) ::
          (crash_id, "input.bin", CrashFile.inputBin (write_input_file inp)) :: st.files }

/-- C5: crash dedup — two results with identical `(signal, stderr)` lead to
exactly one new crash directory: the first call creates it, the second call
returns the state entirely unchanged (writing no file, no directory, and
touching no other fuzzer state); moreover the crash-signature set only ever
grows and never acquires duplicates. -/
theorem save_crash_dedup :
    (∀ r1 r2 i1 i2 ts1 ts2 st s, r1.signal = some s → r2.signal = some s →
      r2.stderr = r1.stderr →
      (s, r1.stderr) ∉ st.unique_crashes → (s, r1.stderr) ∉ st.dirs →
      ∃ st1, save_crash r1 i1 ts1 st = some st1 ∧
        st1.dirs = (s, r1.stderr) :: st.dirs ∧
        save_crash r2 i2 ts2 st1 = some st1) ∧
    (∀ r i ts st st1, save_crash r i ts st = some st1 →
      st.unique_crashes ⊆ st1.unique_crashes ∧
      (st.unique_crashes.Nodup → st1.unique_crashes.Nodup)) := by
  constructor
  · intro r1 r2 i1 i2 ts1 ts2 st s h1 h2 hse hmem hdir
    have hsave : save_crash r1 i1 ts1 st = some
        { unique_crashes := (s, r1.stderr) :: st.unique_crashes
          dirs := (s, r1.stderr) :: st.dirs
          files :=
            ((s, r1.stderr), "reproduce.sh", CrashFile.reproduceSh (some s)) ::
            ((s, r1.stderr), "metadata.json",
              CrashFile.metadataJson ts1 ((some s).getD 0) r1.exit_code r1.execution_time
                (r1.stdout.take 1000) (r1.stderr.take 1000)) ::
            ((s, r1.stderr), "input.bin", CrashFile.inputBin (write_input_file i1)) ::
            st.files } := by
      simp only [save_crash, h1]
      rw [if_neg hmem, if_neg hdir]
    refine ⟨_, hsave, rfl, ?_⟩
    simp only [save_crash, h2, hse]
    rw [if_pos (List.mem_cons_self _ _)]
  · intro r i ts st st1 h
    rcases hs : r.signal with _ | sg
    · simp only [save_crash, hs] at h
      exact absurd h (by simp)
    · simp only [save_crash, hs] at h
      by_cases hmem : ((sg, r.stderr) : CrashSig) ∈ st.unique_crashes
      · rw [if_pos hmem, Option.some.injEq] at h
        subst h
        exact ⟨fun x hx => hx, fun hnd => hnd⟩
      · rw [if_neg hmem, Option.some.injEq] at h
        subst h
        exact ⟨fun x hx => List.mem_cons_of_mem _ hx,
          fun hnd => List.nodup_cons.mpr ⟨hmem, hnd⟩⟩

/-- A second crashed result with the same signal and stderr as `crashedRes`
but different incidental fields. -/
def crashedResAgain : ExecResult :=
  { crashed := true, signal := some 11, stdout := "later run", exit_code := -11 }

set_option maxRecDepth 4000 in
/-- Witness for C5: two concrete identical-signature crashes against the
empty store create one directory, and the second call changes nothing. -/
theorem save_crash_dedup_witness :
    (∃ st1, save_crash crashedRes { bytes := some [1] } 5 ⟨[], [], []⟩ = some st1 ∧
      st1.dirs = [(11, "")] ∧
      save_crash crashedResAgain { bytes := some [2] } 6 st1 = some st1) ∧
    save_crash crashedRes { bytes := some [1] } 5 ⟨[], [], []⟩ =
      some ⟨[(11, "")], [(11, "")],
        [((11, ""), "reproduce.sh", CrashFile.reproduceSh (some 11)),
          ((11, ""), "metadata.json",
            CrashFile.metadataJson 5 11 0 0 ("".take 1000) ("".take 1000)),
          ((11, ""), "input.bin", CrashFile.inputBin [1])]⟩ :=
  ⟨save_crash_dedup.1 crashedRes crashedResAgain { bytes := some [1] } { bytes := some [2] }
      5 6 ⟨[], [], []⟩ 11 rfl rfl rfl (by simp) (by simp), rfl⟩

/-! ### Corpus store (save_interesting_input) -/

/-- The corpus directory as a filename-to-content map; `open(path, 'wb')`
truncates, so a later write to the same name replaces the content (the
newest entry shadows older ones). -/
abbrev CorpusFS := List (String × List Nat)

def fsWrite (fs : CorpusFS) (name : String) (content : List Nat) : CorpusFS :=
  (name, content) :: fs

def fsRead (fs : CorpusFS) (name : String) : Option (List Nat) :=
  (fs.find? (fun e => e.1 == name)).map (fun e => e.2)

/-- Python truthiness of the optional coverage list, as tested by
`if result.get('coverage'):`. -/
def covTruthy : Option (List Int) → Bool
  | none => false
  | some l => !l.isEmpty

/-- The triggering-property list of `save_interesting_input` (fuzzer.py
lines 309-315), in source order: crash, timeout, cov. -/
def propertiesOf (r : ExecResult) : List String :=
  (if r.crashed then ["crash"] else []) ++
  (if r.timeout then ["timeout"] else []) ++
  (if covTruthy r.coverage then ["cov"] else [])

/-- The generated corpus filename: "id_", the integer timestamp, "_", the
properties joined by "_", then ".bin". -/
def interestingFilename (ts : Nat) (r : ExecResult) : String :=
  "id_" ++ toString ts ++ "_" ++ String.intercalate "_" (propertiesOf r) ++ ".bin"

/-- `CameraFuzzer.save_interesting_input` (fuzzer.py lines 306-321): write
the encoded input bytes under the timestamp-and-properties filename in the
corpus directory.  The `int(time.time())` timestamp is an external input. -/
def save_interesting_input (r : ExecResult) (inp : Input) (ts : Nat) (fs : CorpusFS) :
    CorpusFS :=
  fsWrite fs (interestingFilename ts r) (write_input_file inp)

/-- C8 counterexample: two calls during the same second with the same
triggering properties (here: crash) generate the same filename, and the
later `open(..., 'wb')` replaces the earlier file's contents — the earlier
call wrote `[1]`, yet after the later call the file holds `[2]`. -/
theorem save_interesting_input_overwrites :
    fsRead (save_interesting_input crashedRes { bytes := some [2] } 100
        (save_interesting_input crashedRes { bytes := some [1] } 100 []))
      (interestingFilename 100 crashedRes) = some [2] ∧
    fsRead (save_interesting_input crashedRes { bytes := some [1] } 100 [])
      (interestingFilename 100 crashedRes) = some [1] ∧
    ([2] : List Nat) ≠ [1] := by decide

/-- C8 (amended): `save_interesting_input` always writes the encoded input
bytes under the timestamp-and-properties filename, and later calls leave
the files of earlier calls unchanged whenever the generated filenames
differ; calls sharing the timestamp and the triggering-property set
generate the same name and overwrite. -/
theorem save_interesting_input_fresh :
    (∀ r inp ts fs,
      fsRead (save_interesting_input r inp ts fs) (interestingFilename ts r) =
        some (write_input_file inp)) ∧
    (∀ r1 i1 ts1 r2 i2 ts2 fs name, name ≠ interestingFilename ts2 r2 →
      fsRead (save_interesting_input r2 i2 ts2 (save_interesting_input r1 i1 ts1 fs)) name =
        fsRead (save_interesting_input r1 i1 ts1 fs) name) := by
  constructor
  · intro r inp ts fs
    simp [save_interesting_input, fsWrite, fsRead]
  · intro r1 i1 ts1 r2 i2 ts2 fs name h
    simp only [save_interesting_input, fsWrite, fsRead]
    rw [List.find?_cons_of_neg]
    simp only [beq_iff_eq]
    exact fun he => h he.symm

/-- Witness for the amended C8: with distinct timestamps the earlier file
keeps its contents. -/
theorem save_interesting_input_fresh_witness :
    fsRead (save_interesting_input crashedRes { bytes := some [9] } 101
        (save_interesting_input crashedRes { bytes := some [1] } 100 []))
      (interestingFilename 100 crashedRes) = some [1] := by
  rw [save_interesting_input_fresh.2 crashedRes { bytes := some [1] } 100 crashedRes
      { bytes := some [9] } 101 [] (interestingFilename 100 crashedRes) (by decide)]
  exact save_interesting_input_fresh.1 crashedRes { bytes := some [1] } 100 []

/-! ### Randomness and fallible primitives for the mutation strategies -/

/-- `random.randint(lo, hi)` driven by one raw stream value: raises
(`none`) when the range is empty, otherwise clamps the draw into `[lo, hi]`
with `%` — every value of the range is reachable by some stream value, so
quantifying over the stream quantifies over every draw. -/
def randintF (s : Nat) (lo hi : Int) : Option Int :=
  if lo ≤ hi then some (lo + (s : Int) % (hi - lo + 1)) else none

/-- `random.choice(l)` driven by one raw stream value: raises on an empty
sequence. -/
def choiceF {α : Type} (s : Nat) (l : List α) : Option α :=
  l[s % l.length]?

/-- Python `bytearray[i]` for a non-negative index (the strategies only
index with draws bounded below by 0, so the negative-index wraparound is
unreachable and not modelled): out of bounds raises. -/
def pyGetF (l : List Nat) (i : Int) : Option Nat :=
  if 0 ≤ i then l[i.toNat]? else none

/-- Python `bytearray[i] = v` for a non-negative index: out of bounds
raises. -/
def pySetF (l : List Nat) (i : Int) (v : Nat) : Option (List Nat) :=
  if 0 ≤ i ∧ i.toNat < l.length then some (l.set i.toNat v) else none

/-- Python equal-length slice assignment `l[i:i+len(blk)] = blk` for the
in-bounds case the strategies reach (their randint upper bounds keep
`i + len(blk)` within the payload; the length-changing out-of-range case is
unreachable from the strategies and not modelled). -/
def sliceAssignF (l : List Nat) (i : Nat) (blk : List Nat) : Option (List Nat) :=
  if i + blk.length ≤ l.length then some (l.take i ++ blk ++ l.drop (i + blk.length))
  else none

theorem randintF_bounds (s : Nat) (lo hi : Int) (h : lo ≤ hi) :
    ∃ r, randintF s lo hi = some r ∧ lo ≤ r ∧ r ≤ hi := by
  refine ⟨lo + (s : Int) % (hi - lo + 1), ?_, ?_, ?_⟩
  · simp only [randintF]
    rw [if_pos h]
  · have h1 : 0 ≤ (s : Int) % (hi - lo + 1) := Int.emod_nonneg _ (by omega)
    omega
  · have h2 : (s : Int) % (hi - lo + 1) < hi - lo + 1 := Int.emod_lt_of_pos _ (by omega)
    omega

theorem choiceF_isSome {α : Type} (s : Nat) (l : List α) (h : l ≠ []) :
    ∃ a, choiceF s l = some a := by
  have hlt : s % l.length < l.length := Nat.mod_lt _ (List.length_pos.mpr h)
  exact ⟨l[s % l.length], List.getElem?_eq_getElem hlt⟩

theorem pyGetF_eq (l : List Nat) (i : Int) (h0 : 0 ≤ i) (h1 : i.toNat < l.length) :
    pyGetF l i = some l[i.toNat] := by
  simp only [pyGetF, if_pos h0]
  exact List.getElem?_eq_getElem h1

theorem pySetF_eq (l : List Nat) (i : Int) (v : Nat) (h0 : 0 ≤ i) (h1 : i.toNat < l.length) :
    pySetF l i v = some (l.set i.toNat v) := by
  simp only [pySetF]
  rw [if_pos ⟨h0, h1⟩]

theorem sliceAssignF_eq (l : List Nat) (i : Nat) (blk : List Nat)
    (h : i + blk.length ≤ l.length) :
    sliceAssignF l i blk = some (l.take i ++ blk ++ l.drop (i + blk.length)) := by
  simp only [sliceAssignF]
  rw [if_pos h]

/-! ### The byte-oriented mutation strategies -/

/-- One `bytes_data[byte_idx] ^= (1 << bit_idx)` step of `bit_flip`. -/
def flipOnce (b : List Nat) (i bit : Int) : Option (List Nat) :=
  match pyGetF b i with
  | none => none
  | some v => pySetF b i (Nat.xor v (Nat.shiftLeft 1 bit.toNat))

/-- The `for _ in range(num_flips)` loop of `bit_flip`, consuming two
stream values per iteration. -/
def flipLoop (σ : Nat → Nat) : Nat → Nat → List Nat → Option (List Nat)
  | _, 0, b => some b
  | k, n + 1, b =>
      match randintF (σ k) 0 ((b.length : Int) - 1), randintF (σ (k + 1)) 0 7 with
      | some i, some bit =>
          match flipOnce b i bit with
          | some b1 => flipLoop σ (k + 2) n b1
          | none => none
      | _, _ => none

/-- `CameraFuzzer.bit_flip` (fuzzer.py lines 325-341): XOR 1-8 random
single bits across the payload; unchanged without a payload or on an empty
payload. -/
def bit_flip (σ : Nat → Nat) (d : Input) : Option Input :=
  match d.bytes with
  | none => some d
  | some b =>
      if b.isEmpty then some d
      else
        match randintF (σ 0) 1 8 with
        | none => none
        | some nf =>
            match flipLoop σ 1 nf.toNat b with
            | none => none
            | some b1 => some { d with bytes := some b1 }

/-- The `for _ in range(num_flips)` loop of `byte_flip`, consuming one
stream value per iteration. -/
def byteFlipLoop (σ : Nat → Nat) : Nat → Nat → List Nat → Option (List Nat)
  | _, 0, b => some b
  | k, n + 1, b =>
      match randintF (σ k) 0 ((b.length : Int) - 1) with
      | some i =>
          match pyGetF b i with
          | some v =>
              match pySetF b i (Nat.xor v 255) with
              | some b1 => byteFlipLoop σ (k + 1) n b1
              | none => none
          | none => none
      | none => none

/-- `CameraFuzzer.byte_flip` (fuzzer.py lines 343-358): XOR 0xFF into 1-4
random bytes; unchanged without a payload or on an empty payload. -/
def byte_flip (σ : Nat → Nat) (d : Input) : Option Input :=
  match d.bytes with
  | none => some d
  | some b =>
      if b.isEmpty then some d
      else
        match randintF (σ 0) 1 4 with
        | none => none
        | some nf =>
            match byteFlipLoop σ 1 nf.toNat b with
            | none => none
            | some b1 => some { d with bytes := some b1 }

/-- The two equal-length slice assignments of `block_shuffle` once its
guards pass (fuzzer.py lines 406-410): both blocks are read from the
original payload, then written back sequentially — first block2 over the
block at `i1`, then block1 over the block at `i2`. -/
def swapBlocks (b : List Nat) (bs i1 i2 : Nat) : Option (List Nat) :=
  match sliceAssignF b i1 (listSlice b i2 (i2 + bs)) with
  | none => none
  | some t => sliceAssignF t i2 (listSlice b i1 (i1 + bs))

/-- `CameraFuzzer.block_shuffle` (fuzzer.py lines 388-413): unchanged for
payloads shorter than 8 bytes or when the drawn block size (4, 8, 16 or 32)
exceeds half the payload; otherwise the blocks at two independently drawn
offsets are swapped when the offsets differ. -/
def block_shuffle (σ : Nat → Nat) (d : Input) : Option Input :=
  match d.bytes with
  | none => some d
  | some b =>
      if b.length < 8 then some d
      else
        match choiceF (σ 0) [4, 8, 16, 32] with
        | none => none
        | some bs =>
            if b.length / 2 < bs then some d
            else
              match randintF (σ 1) 0 ((b.length : Int) - (bs : Int)),
                  randintF (σ 2) 0 ((b.length : Int) - (bs : Int)) with
              | some i1, some i2 =>
                  if i1 ≠ i2 then
                    match swapBlocks b bs i1.toNat i2.toNat with
                    | none => none
                    | some b1 => some { d with bytes := some b1 }
                  else some { d with bytes := some b }
              | _, _ => none

/-- `CameraFuzzer.truncate_extend` (fuzzer.py lines 415-438): a coin picks
truncation — only effective when the payload exceeds 4 bytes — or extension
by 1-100 bytes, zero-filled or random (`os.urandom` is modelled by stream
bytes). -/
def truncate_extend (σ : Nat → Nat) (d : Input) : Option Input :=
  match d.bytes with
  | none => some d
  | some b =>
      if σ 0 % 2 = 0 then
        if 4 < b.length then
          match randintF (σ 1) 1 ((b.length : Int) - 1) with
          | none => none
          | some nl => some { d with bytes := some (b.take nl.toNat) }
        else some { d with bytes := some b }
      else
        match randintF (σ 1) 1 100 with
        | none => none
        | some el =>
            if σ 2 % 2 = 0 then
              some { d with bytes := some (b ++ List.replicate el.toNat 0) }
            else
              some { d with
                bytes := some (b ++ (List.range el.toNat).map (fun j => σ (3 + j) % 256)) }

/-- `CameraFuzzer.splice_inputs` (fuzzer.py lines 440-456): for payloads
longer than 8 bytes, copy a random 4-32 byte window of the payload and
insert it at a random offset, growing the payload. -/
def splice_inputs (σ : Nat → Nat) (d : Input) : Option Input :=
  match d.bytes with
  | none => some d
  | some b =>
      if 8 < b.length then
        match randintF (σ 0) 0 ((b.length : Int) - 4) with
        | none => none
        | some start =>
            match randintF (σ 1) 4 (min 32 ((b.length : Int) - start)) with
            | none => none
            | some wlen =>
                match randintF (σ 2) 0 (b.length : Int) with
                | none => none
                | some pos =>
                    some { d with
                      bytes := some (b.take pos.toNat ++
                        listSlice b start.toNat (start.toNat + wlen.toNat) ++
                        b.drop pos.toNat) }
      else some d

/-- The fixed token list of `dictionary_mutation` (fuzzer.py lines
461-472): the ASCII keywords CAMERA, POSITION, ROTATION, ZOOM, MATRIX,
QUATERNION and the canonical 4-byte encodings of 0, -1, 1.0f and -1.0f. -/
def dictTokens : List (List Nat) :=
  [[67, 65, 77, 69, 82, 65],
   [80, 79, 83, 73, 84, 73, 79, 78],
   [82, 79, 84, 65, 84, 73, 79, 78],
   [90, 79, 79, 77],
   [77, 65, 84, 82, 73, 88],
   [81, 85, 65, 84, 69, 82, 78, 73, 79, 78],
   [0, 0, 0, 0],
   [255, 255, 255, 255],
   [0, 0, 128, 63],
   [0, 0, 128, 191]]

/-- `CameraFuzzer.dictionary_mutation` (fuzzer.py lines 458-484): overwrite
a random in-bounds window with a random token; unchanged when the payload
is shorter than the token. -/
def dictionary_mutation (σ : Nat → Nat) (d : Input) : Option Input :=
  match d.bytes with
  | none => some d
  | some b =>
      match choiceF (σ 0) dictTokens with
      | none => none
      | some tok =>
          if tok.length ≤ b.length then
            match randintF (σ 1) 0 ((b.length : Int) - (tok.length : Int)) with
            | none => none
            | some pos =>
                match sliceAssignF b pos.toNat tok with
                | none => none
                | some b1 => some { d with bytes := some b1 }
          else some { d with bytes := some b }

/-! ### Totality of the strategies on arbitrary payloads -/

theorem flipLoop_spec (σ : Nat → Nat) :
    ∀ (n k : Nat) (b : List Nat), 0 < b.length →
      ∃ b1, flipLoop σ k n b = some b1 ∧ b1.length = b.length := by
  intro n
  induction n with
  | zero => exact fun k b h => ⟨b, rfl, rfl⟩
  | succ m ih =>
      intro k b h
      obtain ⟨i, hi, hi0, hi1⟩ := randintF_bounds (σ k) 0 ((b.length : Int) - 1) (by omega)
      obtain ⟨bit, hbit, hb0, hb1⟩ := randintF_bounds (σ (k + 1)) 0 7 (by omega)
      have hitn : i.toNat < b.length := by omega
      have hflip : flipOnce b i bit =
          some (b.set i.toNat (Nat.xor b[i.toNat] (Nat.shiftLeft 1 bit.toNat))) := by
        simp only [flipOnce, pyGetF_eq b i hi0 hitn]
        exact pySetF_eq b i _ hi0 hitn
      obtain ⟨b1, hb1eq, hb1len⟩ := ih (k + 2)
        (b.set i.toNat (Nat.xor b[i.toNat] (Nat.shiftLeft 1 bit.toNat)))
        (by rw [List.length_set]; exact h)
      refine ⟨b1, ?_, by rw [hb1len, List.length_set]⟩
      simp only [flipLoop, hi, hbit, hflip]
      exact hb1eq

theorem byteFlipLoop_spec (σ : Nat → Nat) :
    ∀ (n k : Nat) (b : List Nat), 0 < b.length →
      ∃ b1, byteFlipLoop σ k n b = some b1 ∧ b1.length = b.length := by
  intro n
  induction n with
  | zero => exact fun k b h => ⟨b, rfl, rfl⟩
  | succ m ih =>
      intro k b h
      obtain ⟨i, hi, hi0, hi1⟩ := randintF_bounds (σ k) 0 ((b.length : Int) - 1) (by omega)
      have hitn : i.toNat < b.length := by omega
      obtain ⟨b1, hb1eq, hb1len⟩ := ih (k + 1) (b.set i.toNat (Nat.xor b[i.toNat] 255))
        (by rw [List.length_set]; exact h)
      refine ⟨b1, ?_, by rw [hb1len, List.length_set]⟩
      simp only [byteFlipLoop, hi, pyGetF_eq b i hi0 hitn, pySetF_eq b i _ hi0 hitn]
      exact hb1eq

theorem bit_flip_total (σ : Nat → Nat) (d : Input) : (bit_flip σ d).isSome = true := by
  rcases hb : d.bytes with _ | b
  · simp [bit_flip, hb]
  · simp only [bit_flip, hb]
    by_cases he : b.isEmpty
    · rw [if_pos he]
      rfl
    · rw [if_neg he]
      have hpos : 0 < b.length := by
        rcases b with _ | ⟨x, t⟩
        · simp at he
        · simp
      obtain ⟨nf, hnf, _, _⟩ := randintF_bounds (σ 0) 1 8 (by omega)
      obtain ⟨b1, hb1, _⟩ := flipLoop_spec σ nf.toNat 1 b hpos
      simp [hnf, hb1]

theorem byte_flip_total (σ : Nat → Nat) (d : Input) : (byte_flip σ d).isSome = true := by
  rcases hb : d.bytes with _ | b
  · simp [byte_flip, hb]
  · simp only [byte_flip, hb]
    by_cases he : b.isEmpty
    · rw [if_pos he]
      rfl
    · rw [if_neg he]
      have hpos : 0 < b.length := by
        rcases b with _ | ⟨x, t⟩
        · simp at he
        · simp
      obtain ⟨nf, hnf, _, _⟩ := randintF_bounds (σ 0) 1 4 (by omega)
      obtain ⟨b1, hb1, _⟩ := byteFlipLoop_spec σ nf.toNat 1 b hpos
      simp [hnf, hb1]

theorem listSlice_length (l : List Nat) (i j : Nat) (h : j ≤ l.length) (hij : i ≤ j) :
    (listSlice l i j).length = j - i := by
  simp only [listSlice, List.length_take, List.length_drop]
  omega

theorem swapBlocks_isSome (b : List Nat) (bs i1 i2 : Nat)
    (h1 : i1 + bs ≤ b.length) (h2 : i2 + bs ≤ b.length) :
    (swapBlocks b bs i1 i2).isSome = true := by
  have l2 : (listSlice b i2 (i2 + bs)).length = bs := by
    rw [listSlice_length b i2 (i2 + bs) h2 (by omega)]
    omega
  have l1 : (listSlice b i1 (i1 + bs)).length = bs := by
    rw [listSlice_length b i1 (i1 + bs) h1 (by omega)]
    omega
  have c1 : i1 + (listSlice b i2 (i2 + bs)).length ≤ b.length := by omega
  have htlen : (b.take i1 ++ listSlice b i2 (i2 + bs) ++
      b.drop (i1 + (listSlice b i2 (i2 + bs)).length)).length = b.length := by
    simp only [List.length_append, List.length_take, List.length_drop]
    omega
  have c2 : i2 + (listSlice b i1 (i1 + bs)).length ≤ (b.take i1 ++ listSlice b i2 (i2 + bs) ++
      b.drop (i1 + (listSlice b i2 (i2 + bs)).length)).length := by omega
  simp only [swapBlocks, sliceAssignF_eq b i1 _ c1, sliceAssignF_eq _ i2 _ c2,
    Option.isSome_some]

theorem block_shuffle_total (σ : Nat → Nat) (d : Input) :
    (block_shuffle σ d).isSome = true := by
  rcases hb : d.bytes with _ | b
  · simp [block_shuffle, hb]
  · simp only [block_shuffle, hb]
    by_cases h8 : b.length < 8
    · rw [if_pos h8]
      rfl
    · rw [if_neg h8]
      obtain ⟨bs, hbs⟩ := choiceF_isSome (σ 0) [4, 8, 16, 32] (by simp)
      simp only [hbs]
      by_cases hhalf : b.length / 2 < bs
      · rw [if_pos hhalf]
        rfl
      · rw [if_neg hhalf]
        have hbsle : bs ≤ b.length :=
          le_trans (Nat.le_of_not_lt hhalf) (Nat.div_le_self _ _)
        obtain ⟨i1, hi1, hi1a, hi1b⟩ :=
          randintF_bounds (σ 1) 0 ((b.length : Int) - (bs : Int)) (by omega)
        obtain ⟨i2, hi2, hi2a, hi2b⟩ :=
          randintF_bounds (σ 2) 0 ((b.length : Int) - (bs : Int)) (by omega)
        simp only [hi1, hi2]
        by_cases hne : i1 ≠ i2
        · rw [if_pos hne]
          have hs := swapBlocks_isSome b bs i1.toNat i2.toNat (by omega) (by omega)
          obtain ⟨b1, hb1⟩ := Option.isSome_iff_exists.mp hs
          simp [hb1]
        · rw [if_neg hne]
          rfl

theorem truncate_extend_total (σ : Nat → Nat) (d : Input) :
    (truncate_extend σ d).isSome = true := by
  rcases hb : d.bytes with _ | b
  · simp [truncate_extend, hb]
  · simp only [truncate_extend, hb]
    by_cases hc : σ 0 % 2 = 0
    · rw [if_pos hc]
      by_cases h4 : 4 < b.length
      · rw [if_pos h4]
        obtain ⟨nl, hnl, _, _⟩ := randintF_bounds (σ 1) 1 ((b.length : Int) - 1) (by omega)
        simp [hnl]
      · rw [if_neg h4]
        rfl
    · rw [if_neg hc]
      obtain ⟨el, hel, _, _⟩ := randintF_bounds (σ 1) 1 100 (by omega)
      simp only [hel]
      by_cases h2 : σ 2 % 2 = 0
      · rw [if_pos h2]
        rfl
      · rw [if_neg h2]
        rfl

theorem splice_inputs_total (σ : Nat → Nat) (d : Input) :
    (splice_inputs σ d).isSome = true := by
  rcases hb : d.bytes with _ | b
  · simp [splice_inputs, hb]
  · simp only [splice_inputs, hb]
    by_cases h8 : 8 < b.length
    · rw [if_pos h8]
      obtain ⟨start, hst, hst0, hst1⟩ :=
        randintF_bounds (σ 0) 0 ((b.length : Int) - 4) (by omega)
      obtain ⟨wlen, hwl, _, _⟩ :=
        randintF_bounds (σ 1) 4 (min 32 ((b.length : Int) - start))
          (le_min (by omega) (by omega))
      obtain ⟨pos, hpo, _, _⟩ := randintF_bounds (σ 2) 0 (b.length : Int) (by omega)
      simp [hst, hwl, hpo]
    · rw [if_neg h8]
      rfl

theorem dictionary_mutation_total (σ : Nat → Nat) (d : Input) :
    (dictionary_mutation σ d).isSome = true := by
  rcases hb : d.bytes with _ | b
  · simp [dictionary_mutation, hb]
  · simp only [dictionary_mutation, hb]
    obtain ⟨tok, htok⟩ := choiceF_isSome (σ 0) dictTokens (by simp [dictTokens])
    simp only [htok]
    by_cases hlen : tok.length ≤ b.length
    · rw [if_pos hlen]
      obtain ⟨pos, hpo, hp0, hp1⟩ :=
        randintF_bounds (σ 1) 0 ((b.length : Int) - (tok.length : Int)) (by omega)
      have hc : pos.toNat + tok.length ≤ b.length := by omega
      simp [hpo, sliceAssignF_eq b pos.toNat tok hc]
    · rw [if_neg hlen]
      rfl

/-- C10: every byte-oriented mutation strategy is total on degenerate
payloads — for every input (payload of any length, including empty, or no
payload at all) and every random draw, each strategy returns an input
instead of raising: the guards degrade short payloads to no-ops rather than
indexing out of bounds or drawing from an empty range. -/
theorem byte_strategies_total :
    ∀ (σ : Nat → Nat) (d : Input),
      (bit_flip σ d).isSome = true ∧ (byte_flip σ d).isSome = true ∧
      (block_shuffle σ d).isSome = true ∧ (truncate_extend σ d).isSome = true ∧
      (splice_inputs σ d).isSome = true ∧ (dictionary_mutation σ d).isSome = true :=
  fun σ d => ⟨bit_flip_total σ d, byte_flip_total σ d, block_shuffle_total σ d,
    truncate_extend_total σ d, splice_inputs_total σ d, dictionary_mutation_total σ d⟩

/-! ### The block-shuffle swap on disjoint blocks, and the overlap defect -/

theorem swapBlocks_disjoint (p B1 mid B2 s : List Nat) (bs : Nat)
    (hB1 : B1.length = bs) (hB2 : B2.length = bs) :
    swapBlocks (p ++ B1 ++ mid ++ B2 ++ s) bs p.length (p.length + bs + mid.length) =
      some (p ++ B2 ++ mid ++ B1 ++ s) := by
  have hs1 : listSlice (p ++ B1 ++ mid ++ B2 ++ s) p.length (p.length + bs) = B1 := by
    have g1 : p ++ B1 ++ mid ++ B2 ++ s = p ++ (B1 ++ (mid ++ (B2 ++ s))) := by
      simp only [List.append_assoc]
    rw [g1, ← hB1]
    exact slice_mid p B1 (mid ++ (B2 ++ s))
  have hs2 : listSlice (p ++ B1 ++ mid ++ B2 ++ s) (p.length + bs + mid.length)
      (p.length + bs + mid.length + bs) = B2 := by
    have g2 : p ++ B1 ++ mid ++ B2 ++ s = (p ++ (B1 ++ mid)) ++ (B2 ++ s) := by
      simp only [List.append_assoc]
    have hlen2 : (p ++ (B1 ++ mid)).length = p.length + bs + mid.length := by
      simp only [List.length_append]
      omega
    rw [g2, ← hlen2, ← hB2]
    exact slice_mid (p ++ (B1 ++ mid)) B2 s
  have cond1 : p.length + B2.length ≤ (p ++ B1 ++ mid ++ B2 ++ s).length := by
    simp only [List.length_append]
    omega
  have htake : (p ++ B1 ++ mid ++ B2 ++ s).take p.length = p := by
    have g1 : p ++ B1 ++ mid ++ B2 ++ s = p ++ (B1 ++ (mid ++ (B2 ++ s))) := by
      simp only [List.append_assoc]
    rw [g1]
    exact take_len_append _ _
  have hdrop : (p ++ B1 ++ mid ++ B2 ++ s).drop (p.length + B2.length) =
      mid ++ (B2 ++ s) := by
    have g4 : p ++ B1 ++ mid ++ B2 ++ s = (p ++ B1) ++ (mid ++ (B2 ++ s)) := by
      simp only [List.append_assoc]
    have hpb : (p ++ B1).length = p.length + B2.length := by
      simp only [List.length_append]
      omega
    rw [g4, ← hpb]
    exact drop_len_append _ _
  have heq1 : sliceAssignF (p ++ B1 ++ mid ++ B2 ++ s) p.length B2 =
      some (p ++ B2 ++ (mid ++ (B2 ++ s))) := by
    rw [sliceAssignF_eq _ _ _ cond1, htake, hdrop]
  have cond2 : p.length + bs + mid.length + B1.length ≤
      (p ++ B2 ++ (mid ++ (B2 ++ s))).length := by
    simp only [List.length_append]
    omega
  have htake2 : (p ++ B2 ++ (mid ++ (B2 ++ s))).take (p.length + bs + mid.length) =
      p ++ (B2 ++ mid) := by
    have g5 : p ++ B2 ++ (mid ++ (B2 ++ s)) = (p ++ (B2 ++ mid)) ++ (B2 ++ s) := by
      simp only [List.append_assoc]
    have hlen5 : (p ++ (B2 ++ mid)).length = p.length + bs + mid.length := by
      simp only [List.length_append]
      omega
    rw [g5, ← hlen5]
    exact take_len_append _ _
  have hdrop2 : (p ++ B2 ++ (mid ++ (B2 ++ s))).drop
      (p.length + bs + mid.length + B1.length) = s := by
    have g6 : p ++ B2 ++ (mid ++ (B2 ++ s)) = ((p ++ (B2 ++ mid)) ++ B2) ++ s := by
      simp only [List.append_assoc]
    have hlen6 : ((p ++ (B2 ++ mid)) ++ B2).length =
        p.length + bs + mid.length + B1.length := by
      simp only [List.length_append]
      omega
    rw [g6, ← hlen6]
    exact drop_len_append _ _
  have heq2 : sliceAssignF (p ++ B2 ++ (mid ++ (B2 ++ s))) (p.length + bs + mid.length) B1 =
      some (p ++ B2 ++ mid ++ B1 ++ s) := by
    rw [sliceAssignF_eq _ _ _ cond2, htake2, hdrop2]
    simp only [List.append_assoc]
  simp only [swapBlocks, hs1, hs2, heq1, heq2]

/-- C7 (amended): `block_shuffle` is a no-op whenever the payload is
shorter than twice the drawn block size, and when the two independently
drawn in-bounds offsets delimit disjoint blocks its two slice assignments
really swap the equal-length blocks; the independently drawn offsets can
however overlap, in which case the two sequential slice assignments are not
a block swap (see the counterexample theorem). -/
theorem block_shuffle_spec :
    (∀ (σ : Nat → Nat) (d : Input) (b : List Nat) (bs : Nat), d.bytes = some b →
      choiceF (σ 0) [4, 8, 16, 32] = some bs → b.length < 2 * bs →
      block_shuffle σ d = some d) ∧
    (∀ (p B1 mid B2 s : List Nat) (bs : Nat), B1.length = bs → B2.length = bs →
      swapBlocks (p ++ B1 ++ mid ++ B2 ++ s) bs p.length (p.length + bs + mid.length) =
        some (p ++ B2 ++ mid ++ B1 ++ s)) := by
  refine ⟨?_, swapBlocks_disjoint⟩
  intro σ d b bs hb hc hlt
  simp only [block_shuffle, hb]
  by_cases h8 : b.length < 8
  · rw [if_pos h8]
  · rw [if_neg h8]
    simp only [hc]
    rw [if_pos (show b.length / 2 < bs by omega)]

/-- Witness for the amended C7: a 7-byte payload with drawn block size 4 is
left unchanged, and a disjoint swap on a 9-byte payload exchanges the two
4-byte blocks around the middle byte. -/
theorem block_shuffle_spec_witness :
    block_shuffle (fun _ => 0) { bytes := some [0, 1, 2, 3, 4, 5, 6] } =
      some { bytes := some [0, 1, 2, 3, 4, 5, 6] } ∧
    swapBlocks [0, 1, 2, 3, 9, 5, 6, 7, 8] 4 0 5 = some [5, 6, 7, 8, 9, 0, 1, 2, 3] :=
  ⟨block_shuffle_spec.1 (fun _ => 0) { bytes := some [0, 1, 2, 3, 4, 5, 6] }
      [0, 1, 2, 3, 4, 5, 6] 4 rfl rfl (by decide),
    by
      have h := block_shuffle_spec.2 [] [0, 1, 2, 3] [9] [5, 6, 7, 8] [] 4 rfl rfl
      simpa using h⟩

/-- The stream driving the C7 counterexample run: block size 4 (index 0),
first offset 0, second offset 2. -/
def overlapStream : Nat → Nat := fun k => if k = 2 then 2 else 0

/-- C7 counterexample: on the 8-byte payload 0..7 with block size 4 the
offsets 0 and 2 are both drawable and delimit overlapping blocks; the run
produces `[2, 3, 0, 1, 2, 3, 6, 7]`, which is not even a byte-multiset
permutation of the payload — while swapping two non-overlapping equal-length
blocks always permutes it.  So the swapped blocks do overlap for some
random choice of offsets. -/
theorem block_shuffle_overlap_cex :
    block_shuffle overlapStream { bytes := some [0, 1, 2, 3, 4, 5, 6, 7] } =
      some { bytes := some [2, 3, 0, 1, 2, 3, 6, 7] } ∧
    ¬ Multiset.ofList ([2, 3, 0, 1, 2, 3, 6, 7] : List Nat) =
      Multiset.ofList [0, 1, 2, 3, 4, 5, 6, 7] := by decide

/-! ### Reference semantics for the aliasing behaviour of mutate_input -/

/-- The Python object heap restricted to what `mutate_input` manipulates:
the mutable float lists behind `position` and `rotation` live on a heap of
rational vectors and are denoted by reference indices, while numbers and
`bytes` objects are immutable in Python and are held by value.  Floats are
modelled as rationals, exact for the finite values the demonstration
uses. -/
abbrev Heap := List (List ℚ)

/-- An Input dict as the reference model sees it: `position` and `rotation`
hold references into the heap. -/
structure InputRefs where
  position : Option Nat := none
  rotation : Option Nat := none
  zoom : Option ℚ := none
  bytes : Option (List Nat) := none
deriving DecidableEq

/-- `input_data.copy()` (fuzzer.py line 150): a new dict with the same keys
bound to the same object references — the nested lists are shared, not
copied. -/
def dictCopy (d : InputRefs) : InputRefs := d

def heapGet (h : Heap) (r : Nat) : List ℚ := h.getD r []

def heapSet (h : Heap) (r : Nat) (l : List ℚ) : Heap := h.set r l

/-- The in-place update `lst[idx] += delta` of a heap-resident float list
(indices are in range in the states used below). -/
def listAddAt (l : List ℚ) (idx : Nat) (delta : ℚ) : List ℚ :=
  l.set idx (l.getD idx 0 + delta)

/-- `CameraFuzzer.arithmetic_mutation` (fuzzer.py lines 360-371) under the
reference semantics, with the random draws (position index, position delta,
zoom delta) as parameters.  The position update writes through the shared
list reference; the zoom update rebinds the dict's key to a fresh immutable
float, so only the dict passed in — the copy — sees it. -/
def arithmetic_mutation (idx : Nat) (deltaP deltaZ : ℚ) (d : InputRefs) (h : Heap) :
    InputRefs × Heap :=
  let h1 := match d.position with
    | some r => heapSet h r (listAddAt (heapGet h r) idx deltaP)
    | none => h
  let d1 := match d.zoom with
    | some z => { d with zoom := some (z + deltaZ) }
    | none => d
  (d1, h1)

/-- `CameraFuzzer.interesting_values` (fuzzer.py lines 373-386) under the
reference semantics: the three per-field 30% coin flips, component indices
and replacement values are parameters (the non-finite boundary floats lie
outside the rational model; the write-through-reference structure carried
here is what the aliasing claim is about). -/
def interesting_values (doP : Bool) (idxP : Nat) (vP : ℚ) (doR : Bool) (idxR : Nat)
    (vR : ℚ) (doZ : Bool) (vZ : ℚ) (d : InputRefs) (h : Heap) : InputRefs × Heap :=
  let h1 := match d.position, doP with
    | some r, true => heapSet h r ((heapGet h r).set idxP vP)
    | _, _ => h
  let h2 := match d.rotation, doR with
    | some r, true => heapSet h1 r ((heapGet h1 r).set idxR vR)
    | _, _ => h1
  let d1 := match d.zoom, doZ with
    | some _, true => { d with zoom := some vZ }
    | _, _ => d
  (d1, h2)

/-- `CameraFuzzer.mutate_input` (fuzzer.py lines 144-159) under the
reference semantics: the strategy drawn by `random.choice` is applied to
`input_data.copy()` — a shallow dict copy — and on the 10% stacking draw the
further drawn strategies are applied in turn to the already-mutated value
(an empty list models the no-stacking draw). -/
def mutate_input (strategy : InputRefs → Heap → InputRefs × Heap)
    (stacked : List (InputRefs → Heap → InputRefs × Heap))
    (d : InputRefs) (h : Heap) : InputRefs × Heap :=
  let m := strategy (dictCopy d) h
  stacked.foldl (fun acc f => f acc.1 acc.2) m

/-- The value a dict denotes once its references are resolved against the
heap: the (position, rotation, zoom, bytes) quadruple. -/
def resolve (h : Heap) (d : InputRefs) :
    Option (List ℚ) × Option (List ℚ) × Option ℚ × Option (List Nat) :=
  (d.position.map (heapGet h), d.rotation.map (heapGet h), d.zoom, d.bytes)

/-- The seed of the demonstration: position [0,0,0] on the heap at
reference 0, rotation [1,0,0,0] at reference 1, zoom 5. -/
def seedRefs : InputRefs := { position := some 0, rotation := some 1, zoom := some 5 }

def seedHeap : Heap := [[0, 0, 0], [1, 0, 0, 0]]

/-- C1 (refuted, code bug): running `mutate_input` with the arithmetic
strategy drawn (position index 0, delta +1, zoom delta +1, no stacking)
changes the seed itself — `dict.copy()` is shallow, so the strategy's
in-place `data['position'][idx] += delta` writes through the list shared
with the seed, whose denotation changes from position [0,0,0] to [1,0,0,0];
moreover the returned input still aliases the seed's position list. -/
theorem mutate_input_mutates_seed :
    resolve (mutate_input (arithmetic_mutation 0 1 1) [] seedRefs seedHeap).2 seedRefs ≠
      resolve seedHeap seedRefs ∧
    (mutate_input (arithmetic_mutation 0 1 1) [] seedRefs seedHeap).1.position =
      seedRefs.position := by
  constructor
  · intro hEq
    simp [resolve, mutate_input, dictCopy, arithmetic_mutation, heapGet, heapSet,
      listAddAt, seedRefs, seedHeap] at hEq
  · rfl

end Fuzzer
